import Mathlib

set_option maxRecDepth 10000

/-! Verification of the JSON tokenizer and recursive-descent parser of
`src/examples/logos-app/parser.rs` (the logos-based example of
parse-rosetta-rs).  The tokenizer is a shallow embedding of the logos
lexer generated from the `#[token]`/`#[regex]` attributes on `Token`
(maximal munch, whitespace skipped, byte-offset spans); the parser
functions `parse_value`, `parse_array`, `parse_object` mirror the Rust
code line by line, with a fuel argument standing for the call stack and
loop steps so that every definition is a computable structural
recursion. -/

/-- Byte-offset span `start..stop` into the source text (logos `Span`). -/
structure Span where
  start : Nat
  stop : Nat
deriving DecidableEq

/-- All meaningful JSON tokens (`enum Token` in parser.rs). -/
inductive Token where
  | True
  | False
  | BraceOpen
  | BraceClose
  | BracketOpen
  | BracketClose
  | Colon
  | Comma
  | Null
  | Number
  | String
deriving DecidableEq

instance : DecidableEq (Except Unit Token) := fun x y =>
  match x, y with
  | .ok a, .ok b =>
    if h : a = b then isTrue (by rw [h]) else isFalse (by simp [h])
  | .error a, .error b => isTrue (by cases a; cases b; rfl)
  | .ok _, .error _ => isFalse (by simp)
  | .error _, .ok _ => isFalse (by simp)

/-- One element of the logos token stream: `Result<Token, ()>` plus the
span and the matched slice that `Lexer::span`/`Lexer::slice` would report
for it. -/
structure Item where
  tok : Except Unit Token
  span : Span
  slice : String
deriving DecidableEq

/-- The lexer as seen by the parser: remaining token stream, the span of
the most recently consumed token (`lexer.span()`), and the byte length of
the source (the span logos reports once the stream is exhausted is
`len..len`). -/
structure LexerSt where
  items : List Item
  curSpan : Span
  srcEnd : Nat
deriving DecidableEq

/-- `lexer.next()`: pop the next item, updating the span `lexer.span()`
would report.  On exhaustion the span becomes the empty trailing span. -/
def LexerSt.next (st : LexerSt) : Option Item × LexerSt :=
  match st.items with
  | [] => (none, { st with curSpan := ⟨st.srcEnd, st.srcEnd⟩ })
  | i :: rest => (some i, { st with items := rest, curSpan := i.span })

/-- Whitespace skipped by the lexer: `#[logos(skip r"[ \t\r\n\f]+")]`. -/
def isWs (c : Char) : Bool :=
  c = ' ' || c = '\t' || c = '\r' || c = '\n' || c = '\x0c'

/-- Digit `1`-`9` (the `[1-9]` class of the `Number` regex). -/
def isNonZeroDigit (c : Char) : Bool :=
  '1' ≤ c && c ≤ '9'

/-- Length of the run of decimal digits at the head (`\d*`). -/
def countDigits (s : List Char) : Nat :=
  (s.takeWhile Char.isDigit).length

/-- Length matched by `(0|[1-9]\d*)`, the integer part of `Number`. -/
def matchIntPart : List Char → Option Nat
  | [] => none
  | c :: rest =>
    if c = '0' then some 1
    else if isNonZeroDigit c then some (1 + countDigits rest)
    else none

/-- Length matched by the optional fraction `(\.\d+)?` (0 when absent:
a dot not followed by a digit is left unconsumed, as maximal munch
backtracks to the last accepting position). -/
def matchFrac : List Char → Nat
  | '.' :: rest => if countDigits rest = 0 then 0 else 1 + countDigits rest
  | _ => 0

/-- Length matched by the optional exponent `([eE][+-]?\d+)?` (0 when
absent or incomplete). -/
def matchExp : List Char → Nat
  | c :: rest =>
    if c = 'e' || c = 'E' then
      match rest with
      | c2 :: rest2 =>
        if c2 = '+' || c2 = '-' then
          if countDigits rest2 = 0 then 0 else 2 + countDigits rest2
        else if countDigits rest = 0 then 0 else 1 + countDigits rest
      | [] => 0
    else 0
  | [] => 0

/-- Longest prefix matching the `Number` regex
`-?(?:0|[1-9]\d*)(?:\.\d+)?(?:[eE][+-]?\d+)?`. -/
def matchNumber (s : List Char) : Option Nat :=
  match s with
  | '-' :: rest =>
    match matchIntPart rest with
    | some k =>
      let r1 := rest.drop k
      let f := matchFrac r1
      let e := matchExp (r1.drop f)
      some (1 + k + f + e)
    | none => none
  | _ =>
    match matchIntPart s with
    | some k =>
      let r1 := s.drop k
      let f := matchFrac r1
      let e := matchExp (r1.drop f)
      some (k + f + e)
    | none => none

/-- The escape class `["\\bnfrt]` of the `String` regex. -/
def isEsc (c : Char) : Bool :=
  c = '"' || c = '\\' || c = 'b' || c = 'n' || c = 'f' || c = 'r' || c = 't'

/-- Hexadecimal digit, the `[a-fA-F0-9]` class. -/
def isHexDigit (c : Char) : Bool :=
  Char.isDigit c || ('a' ≤ c && c ≤ 'f') || ('A' ≤ c && c ≤ 'F')

/-- Length (including the closing quote) matched by
`([^"\\]|\\["\\bnfrt]|u[a-fA-F0-9]{4})*"`, the part of the `String`
regex after the opening quote.  Note the third alternative of the
source regex is a bare `u` followed by four hex digits, with no
backslash: the `\\` of the second alternative does not distribute over
the alternation.  The accepting positions of this regex are exactly the
unescaped closing quotes, so matching is deterministic; the `u` branch
consumes the same characters the `[^"\\]` branch would (hex digits are
neither `"` nor `\`), so preferring it is equivalent to the DFA's
longest match.  The fuel argument only makes the recursion structural;
each step consumes at least one character, so any `fuel > s.length`
computes the match. -/
def matchStrBody : Nat → List Char → Option Nat
  | 0, _ => none
  | _, [] => none
  | fuel + 1, c :: rest =>
    if c = '"' then some 1
    else if c = '\\' then
      match rest with
      | c2 :: rest2 => if isEsc c2 then (matchStrBody fuel rest2).map (· + 2) else none
      | [] => none
    else if c = 'u' then
      match rest with
      | h1 :: h2 :: h3 :: h4 :: rest4 =>
        if isHexDigit h1 && isHexDigit h2 && isHexDigit h3 && isHexDigit h4 then
          (matchStrBody fuel rest4).map (· + 5)
        else (matchStrBody fuel rest).map (· + 1)
      | _ => (matchStrBody fuel rest).map (· + 1)
    else (matchStrBody fuel rest).map (· + 1)

/-- Longest prefix matching the whole `String` regex
`"([^"\\]|\\["\\bnfrt]|u[a-fA-F0-9]{4})*"`. -/
def matchString (s : List Char) : Option Nat :=
  match s with
  | '"' :: rest => (matchStrBody (rest.length + 1) rest).map (· + 1)
  | _ => none

/-- The token (and its length) matched at the head of `s`.  The first
characters of the eleven patterns are pairwise disjoint (`t`, `f`, `n`,
the six punctuation characters, `-`/digit, `"`), so at most one pattern
can match and no priority disambiguation is needed. -/
def bestTok (s : List Char) : Option (Token × Nat) :=
  if s.take 4 = "true".data then some (.True, 4)
  else if s.take 5 = "false".data then some (.False, 5)
  else if s.take 4 = "null".data then some (.Null, 4)
  else
    match s with
    | '{' :: _ => some (.BraceOpen, 1)
    | '}' :: _ => some (.BraceClose, 1)
    | '[' :: _ => some (.BracketOpen, 1)
    | ']' :: _ => some (.BracketClose, 1)
    | ':' :: _ => some (.Colon, 1)
    | ',' :: _ => some (.Comma, 1)
    | _ =>
      match matchNumber s with
      | some n => some (.Number, n)
      | none => (matchString s).map (fun n => (.String, n))

/-- UTF-8 byte length of a list of characters (logos spans are byte
offsets). -/
def utf8Len (l : List Char) : Nat :=
  l.foldl (fun a c => a + c.utf8Size) 0

/-- The logos token stream for the character list `s` starting at byte
offset `pos`: skip whitespace, emit the (unique) matching token, or an
error item when no pattern matches.  The granularity of error items
(one character each) is a modelling choice; the parser aborts at the
first `Err` it pulls, so nothing below depends on it.  `fuel` only makes
the recursion structural; any `fuel > s.length` gives the full stream. -/
def tokenize : Nat → Nat → List Char → List Item
  | 0, _, _ => []
  | fuel + 1, pos, s =>
    let ws := s.takeWhile isWs
    let pos1 := pos + utf8Len ws
    match s.dropWhile isWs with
    | [] => []
    | c :: rest =>
      match bestTok (c :: rest) with
      | some (t, n) =>
        let lex := (c :: rest).take n
        ⟨.ok t, ⟨pos1, pos1 + utf8Len lex⟩, ⟨lex⟩⟩ ::
          tokenize fuel (pos1 + utf8Len lex) ((c :: rest).drop n)
      | none =>
        ⟨.error (), ⟨pos1, pos1 + c.utf8Size⟩, ⟨[c]⟩⟩ ::
          tokenize fuel (pos1 + c.utf8Size) rest

/-- The initial lexer handed to the parser: full token stream, span
`0..0` (what `lexer.span()` reports before any token is consumed). -/
def initLexer (src : String) : LexerSt :=
  ⟨tokenize (src.data.length + 1) 0 src.data, ⟨0, 0⟩, src.utf8ByteSize⟩

/-- The result of Rust's `str::parse::<f64>()` as far as this parser
observes it.  Finite values are kept as the exact decimal rational: the
rounding of a finite value to the nearest double is not modelled, but
overflow to infinity (the only range behaviour the code's claims are
about) is, via the exact IEEE-754 round-to-nearest threshold. -/
inductive F64 where
  | finite (q : ℚ)
  | inf (neg : Bool)
  | nan
deriving DecidableEq

/-- Numeric value of a digit run, most significant first. -/
def digitsToNat (l : List Char) : Nat :=
  l.foldl (fun a c => 10 * a + (c.toNat - '0'.toNat)) 0

/-- A decimal `m * 10^e` rounds to an infinite double exactly when its
magnitude reaches `2^1024 - 2^970` (the midpoint above the largest
finite double `(2^53 - 1) * 2^971`; ties round away to `2^1024`).
Stated as a pure integer comparison. -/
def overflowsF64 (m : Nat) (e : Int) : Bool :=
  if 0 ≤ e then 2 ^ 970 * (2 ^ 54 - 1) ≤ m * 10 ^ e.toNat
  else 2 ^ 970 * (2 ^ 54 - 1) * 10 ^ (-e).toNat ≤ m

/-- Exact rational value of the decimal `m * 10^e`. -/
def decValue (m : Nat) (e : Int) : ℚ :=
  if 0 ≤ e then mkRat (m * 10 ^ e.toNat) 1 else mkRat m (10 ^ (-e).toNat)

/-- Assemble the double for integer digits `d1`, fraction digits `d2`
and exponent `e`, with sign `neg`. -/
def mkF64 (neg : Bool) (d1 d2 : List Char) (e : Int) : F64 :=
  let m := digitsToNat (d1 ++ d2)
  let e' := e - d2.length
  if overflowsF64 m e' then .inf neg
  else .finite (if neg then -decValue m e' else decValue m e')

/-- ASCII lower-casing, as used by float parsing for `inf`/`NaN`. -/
def asciiLower (c : Char) : Char :=
  if 'A' ≤ c && c ≤ 'Z' then Char.ofNat (c.toNat + 32) else c

/-- Rust's `str::parse::<f64>()`: `none` is `Err(ParseFloatError)` (on
which the code's `.unwrap()` would panic).  The accepted syntax follows
the standard library: an optional sign, then case-insensitive
`inf`/`infinity`/`nan` or a decimal with digits on at least one side of
the optional point and an optional `e`/`E` exponent with mandatory
digits, with nothing left over. -/
def rustParseF64Num (neg : Bool) (cs1 : List Char) : Option F64 :=
  let low := cs1.map asciiLower
  if low = "inf".data || low = "infinity".data then some (.inf neg)
  else if low = "nan".data then some .nan
  else
    let d1 := cs1.takeWhile Char.isDigit
    let r1 := cs1.dropWhile Char.isDigit
    let (d2, r2) :=
      match r1 with
      | '.' :: r => (r.takeWhile Char.isDigit, r.dropWhile Char.isDigit)
      | _ => ([], r1)
    if d1.isEmpty && d2.isEmpty then none
    else
      match r2 with
      | [] => some (mkF64 neg d1 d2 0)
      | c :: r3 =>
        if c = 'e' || c = 'E' then
          let (esgn, r4) :=
            match r3 with
            | '+' :: r => ((1 : Int), r)
            | '-' :: r => ((-1 : Int), r)
            | _ => ((1 : Int), r3)
          let ed := r4.takeWhile Char.isDigit
          let r5 := r4.dropWhile Char.isDigit
          if ed.isEmpty || !r5.isEmpty then none
          else some (mkF64 neg d1 d2 (esgn * digitsToNat ed))
        else none

def rustParseF64 (s : String) : Option F64 :=
  match s.data with
  | '+' :: r => rustParseF64Num false r
  | '-' :: r => rustParseF64Num true r
  | cs => rustParseF64Num false cs

/-- Any valid JSON value (`enum Value` in parser.rs).  The `HashMap` of
`Object` is modelled as an association list with `HashMap::insert`
semantics (`insertKV` below): lookups and overwrites agree with the
hash map, insertion order is an artefact of the model. -/
inductive Value where
  | Null
  | Bool (b : Bool)
  | Number (n : F64)
  | String (s : String)
  | Array (elems : List Value)
  | Object (entries : List (String × Value))

/-- `HashMap::insert`: replace the entry with the given key, or append. -/
def insertKV : List (String × Value) → String → Value → List (String × Value)
  | [], k, v => [(k, v)]
  | (k', v') :: rest, k, v =>
    if k' = k then (k, v) :: rest else (k', v') :: insertKV rest k v

/-- Outcome of a parser call.  `ok`/`err` are the `Result` of the Rust
code (with the updated lexer); `panicked` models a `.unwrap()` panic on a
failed float conversion; `fuelOut` is an artefact of the fuel encoding,
never reached when the fuel exceeds the number of remaining tokens. -/
inductive POut where
  | ok (v : Value) (st : LexerSt)
  | err (msg : String) (sp : Span)
  | panicked
  | fuelOut

/-! The three routines of parser.rs.  `parse_value` is the dispatch of
`fn parse_value`; `arrayLoop` is the `while let` body of
`fn parse_array` (invoked after `[` was consumed, carrying the retained
span of the opening bracket, the accumulated `array`, and the
`awaits_comma`/`awaits_value` flags); `objectLoop` likewise embeds the
loop of `fn parse_object` with its `awaits_comma`/`awaits_key` flags.
One unit of fuel is spent per pulled token or recursive entry, so any
fuel exceeding the number of remaining items is enough (proved below). -/
mutual

def parse_value : Nat → LexerSt → POut
  | 0, _ => .fuelOut
  | fuel + 1, st =>
    match st.next with
    | (some i, st') =>
      match i.tok with
      | .ok .True => .ok (.Bool true) st'
      | .ok .False => .ok (.Bool false) st'
      | .ok .BraceOpen => objectLoop fuel st'.curSpan st' [] false false
      | .ok .BracketOpen => arrayLoop fuel st'.curSpan st' [] false false
      | .ok .Null => .ok .Null st'
      | .ok .Number =>
        match rustParseF64 i.slice with
        | some x => .ok (.Number x) st'
        | none => .panicked
      | .ok .String => .ok (.String i.slice) st'
      | _ => .err "unexpected token here (context: value)" st'.curSpan
    | (none, st') => .err "empty values are not allowed" st'.curSpan

def arrayLoop : Nat → Span → LexerSt → List Value → Bool → Bool → POut
  | 0, _, _, _, _, _ => .fuelOut
  | fuel + 1, sp, st, array, awaits_comma, _awaits_value =>
    match st.next with
    | (none, _) => .err "unmatched opening bracket defined here" sp
    | (some i, st') =>
      match i.tok with
      | .ok .True =>
        if !awaits_comma then arrayLoop fuel sp st' (array ++ [.Bool true]) true false
        else .err "unexpected token here (context: array)" st'.curSpan
      | .ok .False =>
        if !awaits_comma then arrayLoop fuel sp st' (array ++ [.Bool false]) true false
        else .err "unexpected token here (context: array)" st'.curSpan
      | .ok .BraceOpen =>
        if !awaits_comma then
          match objectLoop fuel st'.curSpan st' [] false false with
          | .ok object st'' => arrayLoop fuel sp st'' (array ++ [object]) true false
          | .err m s => .err m s
          | .panicked => .panicked
          | .fuelOut => .fuelOut
        else .err "unexpected token here (context: array)" st'.curSpan
      | .ok .BracketOpen =>
        if !awaits_comma then
          match arrayLoop fuel st'.curSpan st' [] false false with
          | .ok sub_array st'' => arrayLoop fuel sp st'' (array ++ [sub_array]) true false
          | .err m s => .err m s
          | .panicked => .panicked
          | .fuelOut => .fuelOut
        else .err "unexpected token here (context: array)" st'.curSpan
      | .ok .BracketClose =>
        if !_awaits_value then .ok (.Array array) st'
        else .err "unexpected token here (context: array)" st'.curSpan
      | .ok .Comma =>
        if awaits_comma then arrayLoop fuel sp st' array false true
        else .err "unexpected token here (context: array)" st'.curSpan
      | .ok .Null =>
        if !awaits_comma then arrayLoop fuel sp st' (array ++ [.Null]) true false
        else .err "unexpected token here (context: array)" st'.curSpan
      | .ok .Number =>
        if !awaits_comma then
          match rustParseF64 i.slice with
          | some x => arrayLoop fuel sp st' (array ++ [.Number x]) true false
          | none => .panicked
        else .err "unexpected token here (context: array)" st'.curSpan
      | .ok .String =>
        if !awaits_comma then arrayLoop fuel sp st' (array ++ [.String i.slice]) true false
        else .err "unexpected token here (context: array)" st'.curSpan
      | _ => .err "unexpected token here (context: array)" st'.curSpan

def objectLoop : Nat → Span → LexerSt → List (String × Value) → Bool → Bool → POut
  | 0, _, _, _, _, _ => .fuelOut
  | fuel + 1, sp, st, map, awaits_comma, awaits_key =>
    match st.next with
    | (none, _) => .err "unmatched opening brace defined here" sp
    | (some i, st') =>
      match i.tok with
      | .ok .BraceClose =>
        if !awaits_key then .ok (.Object map) st'
        else .err "unexpected token here (context: object)" st'.curSpan
      | .ok .Comma =>
        if awaits_comma then objectLoop fuel sp st' map false true
        else .err "unexpected token here (context: object)" st'.curSpan
      | .ok .String =>
        if !awaits_comma then
          let key := i.slice
          match st'.next with
          | (some j, st2) =>
            match j.tok with
            | .ok .Colon =>
              match parse_value fuel st2 with
              | .ok value st3 => objectLoop fuel sp st3 (insertKV map key value) true false
              | .err m s => .err m s
              | .panicked => .panicked
              | .fuelOut => .fuelOut
            | _ => .err "unexpected token here, expecting ':'" st2.curSpan
          | (none, st2) => .err "unexpected token here, expecting ':'" st2.curSpan
        else .err "unexpected token here (context: object)" st'.curSpan
      | _ => .err "unexpected token here (context: object)" st'.curSpan

end

/-- `fn parse_array` after its `let span = lexer.span()`: the retained
span is the span of the `[` just consumed. -/
def parse_array (fuel : Nat) (st : LexerSt) : POut :=
  arrayLoop fuel st.curSpan st [] false false

/-- `fn parse_object` after its `let span = lexer.span()`. -/
def parse_object (fuel : Nat) (st : LexerSt) : POut :=
  objectLoop fuel st.curSpan st [] false false

/-- The external entry point `parseValue(sourceText)` of the spec: lex
the whole text and run `parse_value` with enough fuel for the stream. -/
def parseValue (src : String) : POut :=
  let st := initLexer src
  parse_value (st.items.length + 1) st

/-- Parsed value of an outcome, ignoring the final lexer state. -/
def POut.result : POut → Option Value
  | .ok v _ => some v
  | _ => none

/-- A token that can begin a value inside an array (§4.3 of the spec:
`True`, `False`, `Null`, `Number`, `String`, `BraceOpen`,
`BracketOpen`). -/
def valueStarting : Token → Bool
  | .True | .False | .Null | .Number | .String | .BraceOpen | .BracketOpen => true
  | _ => false

/-- Every `Number` item of the stream carries a slice the float
conversion accepts (so `.unwrap()` cannot panic on it). -/
def goodItems (l : List Item) : Prop :=
  ∀ i ∈ l, i.tok = .ok .Number → (rustParseF64 i.slice).isSome = true

/-- C1: the spec says a backslash followed by `u` and four hex digits is
accepted inside a `String` token, but the `String` regex only allows a
backslash before `"\bnfrt` — its `u[a-fA-F0-9]{4}` alternative lacks the
backslash — so the 8-character text `"\u0041"` is lexically rejected and
`parse_value` fails on the error token, while ordinary escapes such as
`\n` are accepted. -/
theorem c1_unicode_escape_rejected :
    matchString "\"\\u0041\"".data = none ∧
    matchString "\"a\\n\"".data = some 5 ∧
    parseValue "\"\\u0041\"" = .err "unexpected token here (context: value)" ⟨0, 1⟩ :=
  ⟨by decide, by decide, rfl⟩

/-- C2: inserting an already-present key overwrites the earlier entry
(`HashMap::insert` semantics), and concretely the object text
`{"a":1,"a":2}` parses to an object whose single entry maps the key
slice `"a"` to `Number(2)`. -/
theorem c2_duplicate_key_last_wins :
    (∀ (m : List (String × Value)) (k : String) (v : Value),
        (insertKV m k v).lookup k = some v) ∧
    (parseValue "\x7b\"a\":1,\"a\":2\x7d").result =
      some (.Object [("\"a\"", .Number (.finite 2))]) := by
  refine ⟨?_, rfl⟩
  intro m k v
  induction m with
  | nil => simp [insertKV, List.lookup]
  | cons hd tl ih =>
    obtain ⟨k', v'⟩ := hd
    by_cases hk : k' = k
    · subst hk
      simp [insertKV, List.lookup]
    · have hbeq : (k == k') = false := beq_eq_false_iff_ne.mpr (Ne.symm hk)
      simp [insertKV, hk, List.lookup, ih, hbeq]

/-- C3: when the token stream runs out inside an array or an object, the
loop fails with the unterminated-container message at the span retained
at entry (the opening delimiter's span, which `parse_array` and
`parse_object` capture from `lexer.span()`), not at end-of-stream; in
particular `parseValue "[1,2"` reports the span `0..1` of the `[`. -/
theorem c3_unterminated_container_error_at_opening :
    (∀ (fuel : Nat) (sp : Span) (st : LexerSt) (arr : List Value) (ac av : Bool),
        st.items = [] →
        arrayLoop (fuel + 1) sp st arr ac av =
          .err "unmatched opening bracket defined here" sp) ∧
    (∀ (fuel : Nat) (sp : Span) (st : LexerSt) (m : List (String × Value)) (ac ak : Bool),
        st.items = [] →
        objectLoop (fuel + 1) sp st m ac ak =
          .err "unmatched opening brace defined here" sp) ∧
    (∀ (fuel : Nat) (st : LexerSt),
        parse_array fuel st = arrayLoop fuel st.curSpan st [] false false) ∧
    (∀ (fuel : Nat) (st : LexerSt),
        parse_object fuel st = objectLoop fuel st.curSpan st [] false false) ∧
    parseValue "[1,2" = .err "unmatched opening bracket defined here" ⟨0, 1⟩ ∧
    parseValue "\x7b\"a\":1" = .err "unmatched opening brace defined here" ⟨0, 1⟩ := by
  refine ⟨?_, ?_, fun _ _ => rfl, fun _ _ => rfl, rfl, rfl⟩
  · intro fuel sp st arr ac av h
    simp [arrayLoop, LexerSt.next, h]
  · intro fuel sp st m ac ak h
    simp [objectLoop, LexerSt.next, h]

/-- C4: inside an array, a value-starting token while a comma is
pending, a comma while none is pending, or a close bracket while a value
is pending, all fail with the array-context unexpected-token error
spanning the offending token; concretely `[1,]` and `[1 2]` fail with
the error at the offending token's span (`3..4` in both). -/
theorem c4_array_wrong_state_rejected :
    (∀ (fuel : Nat) (sp : Span) (st : LexerSt) (arr : List Value) (ac av : Bool)
        (i : Item) (rest : List Item) (t : Token),
        st.items = i :: rest → i.tok = .ok t →
        ((valueStarting t = true ∧ ac = true) ∨
          (t = .Comma ∧ ac = false) ∨
          (t = .BracketClose ∧ av = true)) →
        arrayLoop (fuel + 1) sp st arr ac av =
          .err "unexpected token here (context: array)" i.span) ∧
    parseValue "[1,]" = .err "unexpected token here (context: array)" ⟨3, 4⟩ ∧
    parseValue "[1 2]" = .err "unexpected token here (context: array)" ⟨3, 4⟩ := by
  refine ⟨?_, rfl, rfl⟩
  intro fuel sp st arr ac av i rest t hs htok h3
  rcases h3 with ⟨hv, hac⟩ | ⟨ht, hac⟩ | ⟨ht, hav⟩
  · subst hac
    cases t <;> simp_all [arrayLoop, LexerSt.next, valueStarting]
  · subst ht; subst hac
    simp [arrayLoop, LexerSt.next, hs, htok]
  · subst ht; subst hav
    simp [arrayLoop, LexerSt.next, hs, htok]

/-- C5: in an object, once a `String` key is accepted (no comma
pending), the very next token must be `Colon`: any other token fails
with the expecting-colon error at that token's span, and an exhausted
stream fails with the same message at the empty trailing span
`len..len`; concretely `{"a" 1}` reports the span `5..6` of the `1`. -/
theorem c5_object_key_requires_colon :
    (∀ (fuel : Nat) (sp : Span) (st : LexerSt) (m : List (String × Value)) (ak : Bool)
        (i j : Item) (rest : List Item),
        st.items = i :: j :: rest → i.tok = .ok .String → j.tok ≠ .ok .Colon →
        objectLoop (fuel + 1) sp st m false ak =
          .err "unexpected token here, expecting ':'" j.span) ∧
    (∀ (fuel : Nat) (sp : Span) (st : LexerSt) (m : List (String × Value)) (ak : Bool)
        (i : Item),
        st.items = [i] → i.tok = .ok .String →
        objectLoop (fuel + 1) sp st m false ak =
          .err "unexpected token here, expecting ':'" ⟨st.srcEnd, st.srcEnd⟩) ∧
    parseValue "\x7b\"a\" 1\x7d" = .err "unexpected token here, expecting ':'" ⟨5, 6⟩ := by
  refine ⟨?_, ?_, rfl⟩
  · intro fuel sp st m ak i j rest hs hi hne
    obtain ⟨jt, jsp, jsl⟩ := j
    cases jt with
    | error u => simp_all [objectLoop, LexerSt.next]
    | ok t => cases t <;> simp_all [objectLoop, LexerSt.next]
  · intro fuel sp st m ak i hs hi
    simp [objectLoop, LexerSt.next, hs, hi]

/-- C6: the empty source text yields no token, so `parse_value` fails
immediately with the empty-value error at the empty span `0..0`. -/
theorem c6_empty_source_empty_value_error :
    parseValue "" = .err "empty values are not allowed" ⟨0, 0⟩ := rfl

/-- C8: the number lexeme `1e999` passes `parse::<f64>()` with no range
check and overflows to positive infinity, so parsing succeeds with an
infinite `Number` value rather than an error. -/
theorem c8_giant_exponent_silently_infinite :
    rustParseF64 "1e999" = some (.inf false) ∧
    (parseValue "1e999").result = some (.Number (.inf false)) :=
  ⟨by decide, rfl⟩

/-- Every slice the tokenizer emits is a contiguous substring of the
source character list. -/
theorem tokenize_slice_sub (fuel : Nat) :
    ∀ (pos : Nat) (s : List Char) (i : Item),
      i ∈ tokenize fuel pos s → ∃ a b, s = a ++ i.slice.data ++ b := by
  induction fuel with
  | zero =>
    intro pos s i h
    simp [tokenize] at h
  | succ fuel ih =>
    intro pos s i h
    have hsplit : s = s.takeWhile isWs ++ s.dropWhile isWs :=
      (List.takeWhile_append_dropWhile (p := isWs) (l := s)).symm
    cases hdw : s.dropWhile isWs with
    | nil => simp [tokenize, hdw] at h
    | cons c rest =>
      simp only [tokenize, hdw] at h
      cases hb : bestTok (c :: rest) with
      | some tn =>
        obtain ⟨t, n⟩ := tn
        rw [hb] at h
        simp only [List.mem_cons] at h
        cases h with
        | inl hEq =>
          subst hEq
          refine ⟨s.takeWhile isWs, (c :: rest).drop n, ?_⟩
          simp only []
          conv_lhs => rw [hsplit, hdw]
          rw [← List.take_append_drop n (c :: rest)]
          simp [List.append_assoc]
        | inr hMem =>
          obtain ⟨a, b, hab⟩ := ih _ _ _ hMem
          refine ⟨s.takeWhile isWs ++ (c :: rest).take n ++ a, b, ?_⟩
          conv_lhs => rw [hsplit, hdw, ← List.take_append_drop n (c :: rest), hab]
          simp [List.append_assoc]
      | none =>
        rw [hb] at h
        simp only [List.mem_cons] at h
        cases h with
        | inl hEq =>
          subst hEq
          refine ⟨s.takeWhile isWs, rest, ?_⟩
          conv_lhs => rw [hsplit, hdw]
          simp
        | inr hMem =>
          obtain ⟨a, b, hab⟩ := ih _ _ _ hMem
          refine ⟨s.takeWhile isWs ++ [c] ++ a, b, ?_⟩
          conv_lhs => rw [hsplit, hdw, hab]
          simp [List.append_assoc]

/-- C7: a `String` token in value position becomes `Value.String` of the
raw slice, verbatim; slices are exact substrings of the source (nothing
is decoded); and the 6-character text `"a`‐newline‐` b"` survives
character for character, quotes included. -/
theorem c7_string_value_raw_slice :
    (∀ (fuel : Nat) (st : LexerSt) (i : Item) (rest : List Item),
        st.items = i :: rest → i.tok = .ok .String →
        parse_value (fuel + 1) st =
          .ok (.String i.slice) { st with items := rest, curSpan := i.span }) ∧
    (∀ (fuel pos : Nat) (s : List Char) (i : Item),
        i ∈ tokenize fuel pos s → ∃ a b, s = a ++ i.slice.data ++ b) ∧
    (parseValue "\"a\n b\"").result = some (.String "\"a\n b\"") := by
  refine ⟨?_, fun fuel => tokenize_slice_sub fuel, rfl⟩
  intro fuel st i rest hs hi
  simp [parse_value, LexerSt.next, hs, hi]

/-- Fuel adequacy and consumption, proved by one induction on fuel: with
more fuel than remaining tokens none of the three routines runs out, and
a successful return has consumed at least one token (so strictly fewer
remain). -/
theorem fuel_adequate (fuel : Nat) :
    (∀ st : LexerSt, st.items.length < fuel →
      parse_value fuel st ≠ .fuelOut ∧
      (∀ v st', parse_value fuel st = .ok v st' →
        st'.items.length < st.items.length)) ∧
    (∀ (sp : Span) (st : LexerSt) (arr : List Value) (ac av : Bool),
      st.items.length < fuel →
      arrayLoop fuel sp st arr ac av ≠ .fuelOut ∧
      (∀ v st', arrayLoop fuel sp st arr ac av = .ok v st' →
        st'.items.length < st.items.length)) ∧
    (∀ (sp : Span) (st : LexerSt) (m : List (String × Value)) (ac ak : Bool),
      st.items.length < fuel →
      objectLoop fuel sp st m ac ak ≠ .fuelOut ∧
      (∀ v st', objectLoop fuel sp st m ac ak = .ok v st' →
        st'.items.length < st.items.length)) := by
  induction fuel with
  | zero =>
    exact ⟨fun st h => absurd h (by omega),
      fun sp st arr ac av h => absurd h (by omega),
      fun sp st m ac ak h => absurd h (by omega)⟩
  | succ fuel ih =>
    obtain ⟨ihv, iha, iho⟩ := ih
    refine ⟨?_, ?_, ?_⟩
    · rintro ⟨items, cs, se⟩ h
      cases items with
      | nil =>
        exact ⟨fun hc => POut.noConfusion hc, fun v st' hok => POut.noConfusion hok⟩
      | cons i rest =>
        obtain ⟨itok, ispan, islice⟩ := i
        simp only [List.length_cons] at h
        cases itok with
        | error u =>
          exact ⟨fun hc => POut.noConfusion hc, fun v st' hok => POut.noConfusion hok⟩
        | ok t =>
          have hlt : (⟨rest, ispan, se⟩ : LexerSt).items.length < fuel := by
            simp; omega
          cases t
          case True | False | Null | String =>
            refine ⟨fun hc => POut.noConfusion hc, fun v st' hok => ?_⟩
            injection hok with h1 h2
            subst h2
            simp
          case BraceClose | BracketClose | Colon | Comma =>
            exact ⟨fun hc => POut.noConfusion hc, fun v st' hok => POut.noConfusion hok⟩
          case BraceOpen =>
            obtain ⟨hnf, hcons⟩ := iho ispan ⟨rest, ispan, se⟩ [] false false hlt
            refine ⟨hnf, fun v st' hok => ?_⟩
            have := hcons v st' hok
            simp only [List.length_cons]
            simp at this
            omega
          case BracketOpen =>
            obtain ⟨hnf, hcons⟩ := iha ispan ⟨rest, ispan, se⟩ [] false false hlt
            refine ⟨hnf, fun v st' hok => ?_⟩
            have := hcons v st' hok
            simp only [List.length_cons]
            simp at this
            omega
          case Number =>
            constructor
            · simp only [parse_value, LexerSt.next]
              cases hnum : rustParseF64 islice <;> simp
            · intro v st' hok
              simp only [parse_value, LexerSt.next] at hok
              cases hnum : rustParseF64 islice <;> rw [hnum] at hok
              · exact POut.noConfusion hok
              · injection hok with h1 h2
                subst h2
                simp
    · rintro sp ⟨items, cs, se⟩ arr ac av h
      cases items with
      | nil =>
        exact ⟨fun hc => POut.noConfusion hc, fun v st' hok => POut.noConfusion hok⟩
      | cons i rest =>
        obtain ⟨itok, ispan, islice⟩ := i
        simp only [List.length_cons] at h
        cases itok with
        | error u =>
          exact ⟨fun hc => POut.noConfusion hc, fun v st' hok => POut.noConfusion hok⟩
        | ok t =>
          have hlt : (⟨rest, ispan, se⟩ : LexerSt).items.length < fuel := by
            simp; omega
          cases t
          case Colon | BraceClose =>
            exact ⟨fun hc => POut.noConfusion hc, fun v st' hok => POut.noConfusion hok⟩
          case True | False | Null | String =>
            cases ac with
            | true =>
              exact ⟨fun hc => POut.noConfusion hc, fun v st' hok => POut.noConfusion hok⟩
            | false =>
              constructor
              · exact (iha sp ⟨rest, ispan, se⟩ _ true false hlt).1
              · intro v st' hok
                have := (iha sp ⟨rest, ispan, se⟩ _ true false hlt).2 v st' hok
                simp only [List.length_cons]
                simp at this
                omega
          case Comma =>
            cases ac with
            | false =>
              exact ⟨fun hc => POut.noConfusion hc, fun v st' hok => POut.noConfusion hok⟩
            | true =>
              constructor
              · exact (iha sp ⟨rest, ispan, se⟩ arr false true hlt).1
              · intro v st' hok
                have := (iha sp ⟨rest, ispan, se⟩ arr false true hlt).2 v st' hok
                simp only [List.length_cons]
                simp at this
                omega
          case BracketClose =>
            cases av with
            | true =>
              exact ⟨fun hc => POut.noConfusion hc, fun v st' hok => POut.noConfusion hok⟩
            | false =>
              refine ⟨fun hc => POut.noConfusion hc, fun v st' hok => ?_⟩
              injection hok with h1 h2
              subst h2
              simp
          case Number =>
            cases ac with
            | true =>
              exact ⟨fun hc => POut.noConfusion hc, fun v st' hok => POut.noConfusion hok⟩
            | false =>
              constructor
              · simp only [arrayLoop, LexerSt.next, Bool.not_false, if_true]
                cases hnum : rustParseF64 islice with
                | none => simp
                | some x =>
                  have := (iha sp ⟨rest, ispan, se⟩ (arr ++ [.Number x]) true false hlt).1
                  simp only [hnum]
                  exact this
              · intro v st' hok
                simp only [arrayLoop, LexerSt.next, Bool.not_false, if_true] at hok
                cases hnum : rustParseF64 islice <;> rw [hnum] at hok
                · exact POut.noConfusion hok
                · rename_i x
                  have := (iha sp ⟨rest, ispan, se⟩ (arr ++ [.Number x]) true false hlt).2 v st' hok
                  simp only [List.length_cons]
                  simp at this
                  omega
          case BraceOpen =>
            cases ac with
            | true =>
              exact ⟨fun hc => POut.noConfusion hc, fun v st' hok => POut.noConfusion hok⟩
            | false =>
              obtain ⟨hnfO, hconsO⟩ := iho ispan ⟨rest, ispan, se⟩ [] false false hlt
              constructor
              · simp only [arrayLoop, LexerSt.next, Bool.not_false, if_true]
                cases hres : objectLoop fuel ispan ⟨rest, ispan, se⟩ [] false false with
                | ok v2 st2 =>
                  have hlt2 : st2.items.length < fuel := by
                    have := hconsO v2 st2 hres
                    simp at this
                    omega
                  exact (iha sp st2 (arr ++ [v2]) true false hlt2).1
                | err m s => simp
                | panicked => simp
                | fuelOut => exact absurd hres hnfO
              · intro v st' hok
                simp only [arrayLoop, LexerSt.next, Bool.not_false, if_true] at hok
                cases hres : objectLoop fuel ispan ⟨rest, ispan, se⟩ [] false false <;>
                  rw [hres] at hok
                case ok v2 st2 =>
                  have hstep := hconsO v2 st2 hres
                  have hlt2 : st2.items.length < fuel := by
                    simp at hstep; omega
                  have hfin := (iha sp st2 (arr ++ [v2]) true false hlt2).2 v st' hok
                  simp only [List.length_cons]
                  simp at hstep
                  omega
                case err m s => exact POut.noConfusion hok
                case panicked => exact POut.noConfusion hok
                case fuelOut => exact POut.noConfusion hok
          case BracketOpen =>
            cases ac with
            | true =>
              exact ⟨fun hc => POut.noConfusion hc, fun v st' hok => POut.noConfusion hok⟩
            | false =>
              obtain ⟨hnfA, hconsA⟩ := iha ispan ⟨rest, ispan, se⟩ [] false false hlt
              constructor
              · simp only [arrayLoop, LexerSt.next, Bool.not_false, if_true]
                cases hres : arrayLoop fuel ispan ⟨rest, ispan, se⟩ [] false false with
                | ok v2 st2 =>
                  have hlt2 : st2.items.length < fuel := by
                    have := hconsA v2 st2 hres
                    simp at this
                    omega
                  exact (iha sp st2 (arr ++ [v2]) true false hlt2).1
                | err m s => simp
                | panicked => simp
                | fuelOut => exact absurd hres hnfA
              · intro v st' hok
                simp only [arrayLoop, LexerSt.next, Bool.not_false, if_true] at hok
                cases hres : arrayLoop fuel ispan ⟨rest, ispan, se⟩ [] false false <;>
                  rw [hres] at hok
                case ok v2 st2 =>
                  have hstep := hconsA v2 st2 hres
                  have hlt2 : st2.items.length < fuel := by
                    simp at hstep; omega
                  have hfin := (iha sp st2 (arr ++ [v2]) true false hlt2).2 v st' hok
                  simp only [List.length_cons]
                  simp at hstep
                  omega
                case err m s => exact POut.noConfusion hok
                case panicked => exact POut.noConfusion hok
                case fuelOut => exact POut.noConfusion hok
    · rintro sp ⟨items, cs, se⟩ m ac ak h
      cases items with
      | nil =>
        exact ⟨fun hc => POut.noConfusion hc, fun v st' hok => POut.noConfusion hok⟩
      | cons i rest =>
        obtain ⟨itok, ispan, islice⟩ := i
        simp only [List.length_cons] at h
        cases itok with
        | error u =>
          exact ⟨fun hc => POut.noConfusion hc, fun v st' hok => POut.noConfusion hok⟩
        | ok t =>
          cases t
          case True | False | Null | Number | Colon | BraceOpen | BracketOpen | BracketClose =>
            exact ⟨fun hc => POut.noConfusion hc, fun v st' hok => POut.noConfusion hok⟩
          case BraceClose =>
            cases ak with
            | true =>
              exact ⟨fun hc => POut.noConfusion hc, fun v st' hok => POut.noConfusion hok⟩
            | false =>
              refine ⟨fun hc => POut.noConfusion hc, fun v st' hok => ?_⟩
              injection hok with h1 h2
              subst h2
              simp
          case Comma =>
            cases ac with
            | false =>
              exact ⟨fun hc => POut.noConfusion hc, fun v st' hok => POut.noConfusion hok⟩
            | true =>
              have hlt : (⟨rest, ispan, se⟩ : LexerSt).items.length < fuel := by
                simp; omega
              constructor
              · exact (iho sp ⟨rest, ispan, se⟩ m false true hlt).1
              · intro v st' hok
                have := (iho sp ⟨rest, ispan, se⟩ m false true hlt).2 v st' hok
                simp only [List.length_cons]
                simp at this
                omega
          case String =>
            cases ac with
            | true =>
              exact ⟨fun hc => POut.noConfusion hc, fun v st' hok => POut.noConfusion hok⟩
            | false =>
              cases rest with
              | nil =>
                exact ⟨fun hc => POut.noConfusion hc, fun v st' hok => POut.noConfusion hok⟩
              | cons j rest2 =>
                obtain ⟨jtok, jspan, jslice⟩ := j
                simp only [List.length_cons] at h
                cases jtok with
                | error u =>
                  exact ⟨fun hc => POut.noConfusion hc, fun v st' hok => POut.noConfusion hok⟩
                | ok t2 =>
                  cases t2
                  case True | False | Null | Number | Comma | BraceOpen | BracketOpen
                    | BracketClose | BraceClose | String =>
                    exact ⟨fun hc => POut.noConfusion hc, fun v st' hok => POut.noConfusion hok⟩
                  case Colon =>
                    have hlt2 : (⟨rest2, jspan, se⟩ : LexerSt).items.length < fuel := by
                      simp; omega
                    obtain ⟨hnfV, hconsV⟩ := ihv ⟨rest2, jspan, se⟩ hlt2
                    constructor
                    · simp only [objectLoop, LexerSt.next, Bool.not_false, if_true]
                      cases hres : parse_value fuel ⟨rest2, jspan, se⟩ with
                      | ok v2 st3 =>
                        have hlt3 : st3.items.length < fuel := by
                          have := hconsV v2 st3 hres
                          simp at this
                          omega
                        exact (iho sp st3 (insertKV m islice v2) true false hlt3).1
                      | err m2 s2 => simp
                      | panicked => simp
                      | fuelOut => exact absurd hres hnfV
                    · intro v st' hok
                      simp only [objectLoop, LexerSt.next, Bool.not_false, if_true] at hok
                      cases hres : parse_value fuel ⟨rest2, jspan, se⟩ <;> rw [hres] at hok
                      case ok v2 st3 =>
                        have hstep := hconsV v2 st3 hres
                        have hlt3 : st3.items.length < fuel := by
                          simp at hstep; omega
                        have hfin :=
                          (iho sp st3 (insertKV m islice v2) true false hlt3).2 v st' hok
                        simp only [List.length_cons]
                        simp at hstep
                        omega
                      case err m2 s2 => exact POut.noConfusion hok
                      case panicked => exact POut.noConfusion hok
                      case fuelOut => exact POut.noConfusion hok

/-- C9: the parser terminates on every finite source text: with fuel
exceeding the number of remaining tokens (one unit per pulled token,
recursion bounded by nesting), `parse_value` never runs out, and in
particular the entry point `parseValue` never reports fuel exhaustion
for any source text. -/
theorem c9_parse_value_terminates :
    (∀ (fuel : Nat) (st : LexerSt), st.items.length < fuel →
        parse_value fuel st ≠ .fuelOut) ∧
    (∀ src : String, parseValue src ≠ .fuelOut) := by
  refine ⟨fun fuel st h => ((fuel_adequate fuel).1 st h).1, fun src => ?_⟩
  exact (((fuel_adequate ((initLexer src).items.length + 1)).1 (initLexer src) (by omega))).1

/-- Instantiation of `c9_parse_value_terminates` at a concrete lexer
state, with its hypothesis discharged by computation. -/
theorem c9_parse_value_terminates_witness :
    (⟨[], ⟨0, 0⟩, 0⟩ : LexerSt).items.length < 1 ∧
      parse_value 1 ⟨[], ⟨0, 0⟩, 0⟩ ≠ .fuelOut :=
  ⟨by decide, c9_parse_value_terminates.1 1 ⟨[], ⟨0, 0⟩, 0⟩ (by decide)⟩

/-- A digit differs from any concrete non-digit character. -/
theorem digit_ne {c : Char} (h : c.isDigit = true) {d : Char}
    (hd : d.isDigit = false) : c ≠ d := by
  intro heq
  subst heq
  rw [h] at hd
  exact Bool.noConfusion hd

/-- ASCII lower-casing fixes digits. -/
theorem asciiLower_digit {c : Char} (h : c.isDigit = true) : asciiLower c = c := by
  have hcond : ('A' ≤ c && c ≤ 'Z') = false := by
    simp only [Char.isDigit, Bool.and_eq_true, decide_eq_true_eq] at h
    simp only [Bool.and_eq_false_iff, decide_eq_false_iff_not]
    left
    intro hle
    rw [Char.le_def] at hle
    exact absurd (UInt32.le_trans hle h.2) (by decide)
  simp [asciiLower, hcond]

/-- `take` of the digit count is the leading digit run. -/
theorem take_countDigits (l : List Char) :
    l.take (countDigits l) = l.takeWhile Char.isDigit := by
  induction l with
  | nil => simp [countDigits]
  | cons c t ih =>
    cases hc : c.isDigit with
    | true =>
      simp [countDigits, List.takeWhile_cons, hc] at ih ⊢
      exact ih
    | false => simp [countDigits, List.takeWhile_cons, hc]

/-- `drop` of the digit count is the remainder after the digit run. -/
theorem drop_countDigits (l : List Char) :
    l.drop (countDigits l) = l.dropWhile Char.isDigit := by
  induction l with
  | nil => simp [countDigits]
  | cons c t ih =>
    cases hc : c.isDigit with
    | true =>
      simp [countDigits, List.takeWhile_cons, List.dropWhile_cons, hc] at ih ⊢
      exact ih
    | false => simp [countDigits, List.takeWhile_cons, List.dropWhile_cons, hc]

/-- A digit `1`-`9` is a digit. -/
theorem nonzero_digit {c : Char} (h : isNonZeroDigit c = true) : c.isDigit = true := by
  simp only [isNonZeroDigit, Bool.and_eq_true, decide_eq_true_eq] at h
  obtain ⟨h1, h2⟩ := h
  rw [Char.le_def] at h1 h2
  simp only [Char.isDigit, Bool.and_eq_true, decide_eq_true_eq]
  exact ⟨UInt32.le_trans (by decide) h1, h2⟩

/-- Inversion for the integer part: it matches at least one character,
and the matched slice is a nonempty run of digits. -/
theorem matchIntPart_shape {s1 : List Char} {k : Nat}
    (h : matchIntPart s1 = some k) :
    1 ≤ k ∧ ∃ c t, s1.take k = c :: t ∧ (c :: t).all Char.isDigit = true := by
  cases s1 with
  | nil => exact absurd h (by simp [matchIntPart])
  | cons c rest =>
    simp only [matchIntPart] at h
    split_ifs at h with hc hnz
    · injection h with hk
      subst hc
      refine ⟨by omega, '0', [], ?_, by decide⟩
      rw [← hk]
      rfl
    · injection h with hk
      refine ⟨by omega, c, rest.takeWhile Char.isDigit, ?_, ?_⟩
      · rw [← hk, Nat.add_comm, List.take_succ_cons, take_countDigits]
      · simp only [List.all_cons, Bool.and_eq_true]
        exact ⟨nonzero_digit hnz, List.all_takeWhile⟩

/-- Inversion for a present fraction: a dot followed by a nonempty digit
run, with the matched slice and the remainder identified. -/
theorem matchFrac_pos {r1 : List Char} (h : 0 < matchFrac r1) :
    ∃ t, r1 = '.' :: t ∧ 0 < countDigits t ∧
      r1.take (matchFrac r1) = '.' :: t.takeWhile Char.isDigit ∧
      r1.drop (matchFrac r1) = t.dropWhile Char.isDigit := by
  cases r1 with
  | nil => exact absurd h (by simp [matchFrac])
  | cons c t =>
    by_cases hc : c = '.'
    · subst hc
      refine ⟨t, rfl, ?_, ?_, ?_⟩
      · simp only [matchFrac] at h ⊢
        by_cases hz : countDigits t = 0
        · simp [hz] at h
        · omega
      · simp only [matchFrac] at h ⊢
        by_cases hz : countDigits t = 0
        · simp [hz] at h
        · simp only [if_neg hz, Nat.add_comm 1, List.take_succ_cons, take_countDigits]
      · simp only [matchFrac] at h ⊢
        by_cases hz : countDigits t = 0
        · simp [hz] at h
        · simp only [if_neg hz, Nat.add_comm 1, List.drop_succ_cons, drop_countDigits]
    · exfalso
      have hzero : matchFrac (c :: t) = 0 := by
        unfold matchFrac
        split
        next heq =>
          injection heq with hcc
          exact absurd hcc hc
        next => rfl
      omega

/-- Inversion for a present exponent: `e`/`E`, an optional sign, then a
nonempty digit run, with the matched slice identified in each case. -/
theorem matchExp_pos {r2 : List Char} (h : 0 < matchExp r2) :
    ∃ c0 t, r2 = c0 :: t ∧ (c0 = 'e' ∨ c0 = 'E') ∧
      ((∃ c2 t2, t = c2 :: t2 ∧ (c2 = '+' ∨ c2 = '-') ∧ 0 < countDigits t2 ∧
          r2.take (matchExp r2) = c0 :: c2 :: t2.takeWhile Char.isDigit) ∨
        (0 < countDigits t ∧
          r2.take (matchExp r2) = c0 :: t.takeWhile Char.isDigit)) := by
  cases r2 with
  | nil => simp [matchExp] at h
  | cons c0 t =>
    by_cases h0 : c0 = 'e' ∨ c0 = 'E'
    · refine ⟨c0, t, rfl, h0, ?_⟩
      cases t with
      | nil =>
        exfalso
        rcases h0 with rfl | rfl <;> simp [matchExp] at h
      | cons c2 t2 =>
        by_cases hsign : c2 = '+' ∨ c2 = '-'
        · left
          have hcd : 0 < countDigits t2 := by
            by_contra hz
            have hz0 : countDigits t2 = 0 := by omega
            rcases h0 with rfl | rfl <;> rcases hsign with rfl | rfl <;>
              simp [matchExp, hz0] at h
          refine ⟨c2, t2, rfl, hsign, hcd, ?_⟩
          have hm : matchExp (c0 :: c2 :: t2) = 2 + countDigits t2 := by
            rcases h0 with rfl | rfl <;> rcases hsign with rfl | rfl <;>
              simp [matchExp, Nat.pos_iff_ne_zero.mp hcd]
          rw [hm, show 2 + countDigits t2 = countDigits t2 + 1 + 1 from by omega,
            List.take_succ_cons, List.take_succ_cons, take_countDigits]
        · right
          obtain ⟨hp, hm2⟩ := not_or.mp hsign
          have hcd : 0 < countDigits (c2 :: t2) := by
            by_contra hz
            have hz0 : countDigits (c2 :: t2) = 0 := by omega
            rcases h0 with rfl | rfl <;> simp [matchExp, hz0, hp, hm2] at h
          refine ⟨hcd, ?_⟩
          have hm : matchExp (c0 :: c2 :: t2) = 1 + countDigits (c2 :: t2) := by
            rcases h0 with rfl | rfl <;>
              simp [matchExp, hp, hm2, Nat.pos_iff_ne_zero.mp hcd]
          rw [hm, Nat.add_comm, List.take_succ_cons, take_countDigits]
    · exfalso
      obtain ⟨he, hE⟩ := not_or.mp h0
      simp [matchExp, he, hE] at h

/-- `takeWhile` of a list that wholly satisfies the predicate. -/
theorem takeWhile_all_self {p : Char → Bool} {l : List Char}
    (h : l.all p = true) : l.takeWhile p = l := by
  induction l with
  | nil => rfl
  | cons c t ih =>
    simp only [List.all_cons, Bool.and_eq_true] at h
    simp [List.takeWhile_cons, h.1, ih h.2]

/-- `dropWhile` of a list that wholly satisfies the predicate. -/
theorem dropWhile_all_nil {p : Char → Bool} {l : List Char}
    (h : l.all p = true) : l.dropWhile p = [] := by
  induction l with
  | nil => rfl
  | cons c t ih =>
    simp only [List.all_cons, Bool.and_eq_true] at h
    simp [List.dropWhile_cons, h.1, ih h.2]

/-- Any character list of the shape `digits (. digits)? ([eE] sign?
digits)?` is accepted by the float conversion: its result is `some`. -/
theorem rustParseF64Num_accepts (neg : Bool) (ip fr ex : List Char)
    (hipne : ip ≠ []) (hipd : ip.all Char.isDigit = true)
    (hfr : fr = [] ∨ ∃ ds, fr = '.' :: ds ∧ ds ≠ [] ∧ ds.all Char.isDigit = true)
    (hex : ex = [] ∨ ∃ c0 sg dd, (c0 = 'e' ∨ c0 = 'E') ∧
        (sg = [] ∨ sg = ['+'] ∨ sg = ['-']) ∧ dd ≠ [] ∧ dd.all Char.isDigit = true ∧
        ex = c0 :: (sg ++ dd)) :
    (rustParseF64Num neg (ip ++ (fr ++ ex))).isSome = true := by
  obtain ⟨c, t0, rfl⟩ : ∃ c t0, ip = c :: t0 := by
    cases ip with
    | nil => exact absurd rfl hipne
    | cons c t0 => exact ⟨c, t0, rfl⟩
  have hall := hipd
  simp only [List.all_cons, Bool.and_eq_true] at hall
  obtain ⟨hc, ht0⟩ := hall
  have hmem : ∀ a ∈ c :: t0, Char.isDigit a = true := List.all_eq_true.mp hipd
  have hne_i : c ≠ 'i' := digit_ne hc (by decide)
  have hne_n : c ≠ 'n' := digit_ne hc (by decide)
  rcases hfr with rfl | ⟨ds, rfl, hdsne, hdsd⟩ <;>
    rcases hex with rfl | ⟨c0, sg, dd, h0, hsg, hddne, hddd, rfl⟩
  · -- no fraction, no exponent
    simp only [List.append_nil]
    have hd1 : List.takeWhile Char.isDigit (c :: t0) = c :: t0 :=
      takeWhile_all_self hipd
    have hr1 : List.dropWhile Char.isDigit (c :: t0) = [] :=
      dropWhile_all_nil hipd
    simp [rustParseF64Num, asciiLower_digit hc, hne_i, hne_n, hd1, hr1]
  · -- no fraction, exponent present
    obtain ⟨d0, dt, rfl⟩ : ∃ d0 dt, dd = d0 :: dt := by
      cases dd with
      | nil => exact absurd rfl hddne
      | cons d0 dt => exact ⟨d0, dt, rfl⟩
    have hddall := hddd
    simp only [List.all_cons, Bool.and_eq_true] at hddall
    obtain ⟨hd0, hdt⟩ := hddall
    have hd1 : List.takeWhile Char.isDigit ((c :: t0) ++ ([] ++ (c0 :: (sg ++ (d0 :: dt)))))
        = c :: t0 := by
      rw [List.takeWhile_append_of_pos hmem]
      rcases h0 with rfl | rfl <;>
        simp [List.takeWhile_cons_of_neg]
    have hr1 : List.dropWhile Char.isDigit ((c :: t0) ++ ([] ++ (c0 :: (sg ++ (d0 :: dt)))))
        = c0 :: (sg ++ (d0 :: dt)) := by
      rw [List.dropWhile_append_of_pos hmem]
      rcases h0 with rfl | rfl <;>
        simp [List.dropWhile_cons_of_neg]
    have hedt : List.takeWhile Char.isDigit (d0 :: dt) = d0 :: dt :=
      takeWhile_all_self hddd
    have hedr : List.dropWhile Char.isDigit (d0 :: dt) = [] :=
      dropWhile_all_nil hddd
    rcases h0 with rfl | rfl <;> rcases hsg with rfl | rfl | rfl <;>
      (simp only [List.nil_append, List.cons_append] at hd1 hr1
       simp [rustParseF64Num, asciiLower_digit hc, hne_i, hne_n, hd1, hr1, hedt, hedr,
         digit_ne hd0 (show ('+').isDigit = false from by decide),
         digit_ne hd0 (show ('-').isDigit = false from by decide)])
  · -- fraction present, no exponent
    simp only [List.append_nil]
    have hd1 : List.takeWhile Char.isDigit ((c :: t0) ++ ('.' :: ds)) = c :: t0 := by
      rw [List.takeWhile_append_of_pos hmem]
      simp [List.takeWhile_cons_of_neg]
    have hr1 : List.dropWhile Char.isDigit ((c :: t0) ++ ('.' :: ds)) = '.' :: ds := by
      rw [List.dropWhile_append_of_pos hmem]
      simp [List.dropWhile_cons_of_neg]
    have hdst : List.takeWhile Char.isDigit ds = ds := takeWhile_all_self hdsd
    have hdsr : List.dropWhile Char.isDigit ds = [] := dropWhile_all_nil hdsd
    simp only [List.nil_append, List.cons_append] at hd1 hr1
    simp [rustParseF64Num, asciiLower_digit hc, hne_i, hne_n, hd1, hr1, hdst, hdsr]
  · -- fraction and exponent present
    obtain ⟨d0, dt, rfl⟩ : ∃ d0 dt, dd = d0 :: dt := by
      cases dd with
      | nil => exact absurd rfl hddne
      | cons d0 dt => exact ⟨d0, dt, rfl⟩
    have hddall := hddd
    simp only [List.all_cons, Bool.and_eq_true] at hddall
    obtain ⟨hd0, hdt⟩ := hddall
    have hdsmem : ∀ a ∈ ds, Char.isDigit a = true := List.all_eq_true.mp hdsd
    have hd1 : List.takeWhile Char.isDigit
        ((c :: t0) ++ (('.' :: ds) ++ (c0 :: (sg ++ (d0 :: dt))))) = c :: t0 := by
      rw [List.takeWhile_append_of_pos hmem]
      simp [List.takeWhile_cons_of_neg]
    have hr1 : List.dropWhile Char.isDigit
        ((c :: t0) ++ (('.' :: ds) ++ (c0 :: (sg ++ (d0 :: dt))))) =
        ('.' :: ds) ++ (c0 :: (sg ++ (d0 :: dt))) := by
      rw [List.dropWhile_append_of_pos hmem]
      simp [List.dropWhile_cons_of_neg]
    have hdst : List.takeWhile Char.isDigit (ds ++ (c0 :: (sg ++ (d0 :: dt)))) = ds := by
      rw [List.takeWhile_append_of_pos hdsmem]
      rcases h0 with rfl | rfl <;>
        simp [List.takeWhile_cons_of_neg]
    have hdsr : List.dropWhile Char.isDigit (ds ++ (c0 :: (sg ++ (d0 :: dt)))) =
        c0 :: (sg ++ (d0 :: dt)) := by
      rw [List.dropWhile_append_of_pos hdsmem]
      rcases h0 with rfl | rfl <;>
        simp [List.dropWhile_cons_of_neg]
    have hedt : List.takeWhile Char.isDigit (d0 :: dt) = d0 :: dt :=
      takeWhile_all_self hddd
    have hedr : List.dropWhile Char.isDigit (d0 :: dt) = [] :=
      dropWhile_all_nil hddd
    rcases h0 with rfl | rfl <;> rcases hsg with rfl | rfl | rfl <;>
      (simp only [List.nil_append, List.cons_append] at hd1 hr1 hdst hdsr
       simp [rustParseF64Num, asciiLower_digit hc, hne_i, hne_n, hd1, hr1, hdst, hdsr,
         hedt, hedr,
         digit_ne hd0 (show ('+').isDigit = false from by decide),
         digit_ne hd0 (show ('-').isDigit = false from by decide)])

/-- The sign match of the float conversion falls through on a head that
is neither `+` nor `-`. -/
theorem rustParseF64_not_sign {c : Char} (h1 : c ≠ '+') (h2 : c ≠ '-')
    (t : List Char) : rustParseF64 ⟨c :: t⟩ = rustParseF64Num false (c :: t) := by
  unfold rustParseF64
  split
  next heq =>
    injection heq with hc
    exact absurd hc h1
  next heq =>
    injection heq with hc
    exact absurd hc h2
  next => rfl

/-- The float conversion on a `-`-signed character list. -/
theorem rustParseF64_neg_head (t : List Char) :
    rustParseF64 ⟨'-' :: t⟩ = rustParseF64Num true t := rfl

/-- The slice matched by integer part, optional fraction and optional
exponent starting from `s1` is accepted by the float conversion. -/
theorem core_slice (s1 : List Char) (k : Nat) (neg : Bool)
    (hk : matchIntPart s1 = some k) :
    (rustParseF64Num neg (s1.take (k + (matchFrac (s1.drop k) +
      matchExp ((s1.drop k).drop (matchFrac (s1.drop k))))))).isSome = true := by
  set r1 := s1.drop k with hr1def
  set f := matchFrac r1 with hfdef
  set r2 := r1.drop f with hr2def
  set e := matchExp r2 with hedef
  obtain ⟨hk1, c, t, hip, hipall⟩ := matchIntPart_shape hk
  have hsplit : s1.take (k + (f + e)) = s1.take k ++ (r1.take f ++ r2.take e) := by
    rw [List.take_add s1 k (f + e), List.take_add r1 f e]
  rw [hsplit]
  apply rustParseF64Num_accepts
  · rw [hip]
    exact List.cons_ne_nil c t
  · rw [hip]
    exact hipall
  · by_cases hf0 : f = 0
    · left
      rw [hf0]
      rfl
    · right
      obtain ⟨t', hr1eq, hcd, htake, hdrop⟩ := matchFrac_pos (Nat.pos_of_ne_zero hf0)
      refine ⟨t'.takeWhile Char.isDigit, htake, ?_, List.all_takeWhile⟩
      have : 0 < (t'.takeWhile Char.isDigit).length := hcd
      exact List.ne_nil_of_length_pos this
  · by_cases he0 : e = 0
    · left
      rw [he0]
      rfl
    · right
      obtain ⟨c0, t', hr2eq, h0, hcase⟩ := matchExp_pos (Nat.pos_of_ne_zero he0)
      rcases hcase with ⟨c2, t2, ht', hsgn, hcd, htake⟩ | ⟨hcd, htake⟩
      · refine ⟨c0, [c2], t2.takeWhile Char.isDigit, h0, ?_, ?_, List.all_takeWhile, ?_⟩
        · rcases hsgn with rfl | rfl
          · right; left; rfl
          · right; right; rfl
        · exact List.ne_nil_of_length_pos hcd
        · rw [htake]
          rfl
      · refine ⟨c0, [], t'.takeWhile Char.isDigit, h0, Or.inl rfl, ?_,
          List.all_takeWhile, ?_⟩
        · exact List.ne_nil_of_length_pos hcd
        · rw [htake]
          rfl

/-- Every slice the `Number` regex matches is accepted by the float
conversion. -/
theorem matchNumber_accepted {s : List Char} {n : Nat}
    (h : matchNumber s = some n) : (rustParseF64 ⟨s.take n⟩).isSome = true := by
  cases s with
  | nil => simp [matchNumber, matchIntPart] at h
  | cons c srest =>
    by_cases hneg : c = '-'
    · subst hneg
      simp only [matchNumber] at h
      cases hk : matchIntPart srest with
      | none =>
        rw [hk] at h
        exact absurd h (by simp)
      | some k =>
        rw [hk] at h
        simp only [Option.some.injEq] at h
        subst h
        have htk : ('-' :: srest).take
            (1 + k + matchFrac (srest.drop k) +
              matchExp ((srest.drop k).drop (matchFrac (srest.drop k)))) =
            '-' :: srest.take (k + (matchFrac (srest.drop k) +
              matchExp ((srest.drop k).drop (matchFrac (srest.drop k))))) := by
          rw [show 1 + k + matchFrac (srest.drop k) +
              matchExp ((srest.drop k).drop (matchFrac (srest.drop k))) =
              (k + (matchFrac (srest.drop k) +
                matchExp ((srest.drop k).drop (matchFrac (srest.drop k))))) + 1
            from by omega, List.take_succ_cons]
        rw [htk, rustParseF64_neg_head]
        exact core_slice srest k true hk
    · have hmain : matchNumber (c :: srest) =
          match matchIntPart (c :: srest) with
          | some k =>
            some (k + matchFrac ((c :: srest).drop k) +
              matchExp (((c :: srest).drop k).drop (matchFrac ((c :: srest).drop k))))
          | none => none := by
        unfold matchNumber
        split
        next heq =>
          injection heq with hc
          exact absurd hc hneg
        next => rfl
      rw [hmain] at h
      cases hk : matchIntPart (c :: srest) with
      | none =>
        rw [hk] at h
        exact absurd h (by simp)
      | some k =>
        rw [hk] at h
        simp only [Option.some.injEq] at h
        subst h
        obtain ⟨hk1, ch, th, hip, hipall⟩ := matchIntPart_shape hk
        have hch : ch = c := by
          obtain ⟨k', rfl⟩ : ∃ k', k = k' + 1 := ⟨k - 1, by omega⟩
          rw [List.take_succ_cons] at hip
          injection hip with hip1
          exact hip1.symm
        have hc : c.isDigit = true := by
          simp only [List.all_cons, Bool.and_eq_true] at hipall
          rw [← hch]
          exact hipall.1
        have htk : ∃ t', (c :: srest).take
            (k + matchFrac ((c :: srest).drop k) +
              matchExp (((c :: srest).drop k).drop (matchFrac ((c :: srest).drop k)))) =
            c :: t' := by
          obtain ⟨k', rfl⟩ : ∃ k', k = k' + 1 := ⟨k - 1, by omega⟩
          rw [show k' + 1 + matchFrac ((c :: srest).drop (k' + 1)) +
              matchExp (((c :: srest).drop (k' + 1)).drop
                (matchFrac ((c :: srest).drop (k' + 1)))) =
              (k' + matchFrac ((c :: srest).drop (k' + 1)) +
                matchExp (((c :: srest).drop (k' + 1)).drop
                  (matchFrac ((c :: srest).drop (k' + 1))))) + 1
            from by omega, List.take_succ_cons]
          exact ⟨_, rfl⟩
        obtain ⟨t', ht'⟩ := htk
        rw [ht', rustParseF64_not_sign (digit_ne hc (by decide)) hneg, ← ht',
          show k + matchFrac ((c :: srest).drop k) +
            matchExp (((c :: srest).drop k).drop (matchFrac ((c :: srest).drop k))) =
            k + (matchFrac ((c :: srest).drop k) +
              matchExp (((c :: srest).drop k).drop (matchFrac ((c :: srest).drop k))))
          from by omega]
        exact core_slice (c :: srest) k false hk

/-- A `Number` classification by the tokenizer comes from the `Number`
regex. -/
theorem bestTok_number {s : List Char} {n : Nat}
    (h : bestTok s = some (.Number, n)) : matchNumber s = some n := by
  unfold bestTok at h
  split_ifs at h with h1 h2 h3
  · simp at h
  · simp at h
  · simp at h
  · split at h
    · simp at h
    · simp at h
    · simp at h
    · simp at h
    · simp at h
    · simp at h
    · cases hm : matchNumber s with
      | some n' =>
        rw [hm] at h
        simp only [Option.some.injEq, Prod.mk.injEq] at h
        rw [h.2]
      | none =>
        rw [hm] at h
        exfalso
        cases hs : matchString s with
        | some n' => rw [hs] at h; simp at h
        | none => rw [hs] at h; simp at h

/-- Every stream the tokenizer produces is good: each `Number` item's
slice is accepted by the float conversion. -/
theorem tokenize_good (fuel : Nat) :
    ∀ (pos : Nat) (s : List Char), goodItems (tokenize fuel pos s) := by
  induction fuel with
  | zero =>
    intro pos s i hi
    simp [tokenize] at hi
  | succ fuel ih =>
    intro pos s i hi hnum
    cases hdw : s.dropWhile isWs with
    | nil => simp [tokenize, hdw] at hi
    | cons c rest =>
      simp only [tokenize, hdw] at hi
      cases hb : bestTok (c :: rest) with
      | some tn =>
        obtain ⟨t, n⟩ := tn
        rw [hb] at hi
        simp only [List.mem_cons] at hi
        cases hi with
        | inl hEq =>
          subst hEq
          simp only at hnum
          injection hnum with ht
          subst ht
          exact matchNumber_accepted (bestTok_number hb)
        | inr hMem => exact ih _ _ i hMem hnum
      | none =>
        rw [hb] at hi
        simp only [List.mem_cons] at hi
        cases hi with
        | inl hEq =>
          subst hEq
          simp at hnum
        | inr hMem => exact ih _ _ i hMem hnum

/-- On a good stream (every `Number` slice convertible) none of the
three routines can panic, and success preserves goodness of the
remaining stream. -/
theorem no_panic (fuel : Nat) :
    (∀ st : LexerSt, goodItems st.items →
      parse_value fuel st ≠ .panicked ∧
      (∀ v st', parse_value fuel st = .ok v st' → goodItems st'.items)) ∧
    (∀ (sp : Span) (st : LexerSt) (arr : List Value) (ac av : Bool),
      goodItems st.items →
      arrayLoop fuel sp st arr ac av ≠ .panicked ∧
      (∀ v st', arrayLoop fuel sp st arr ac av = .ok v st' → goodItems st'.items)) ∧
    (∀ (sp : Span) (st : LexerSt) (m : List (String × Value)) (ac ak : Bool),
      goodItems st.items →
      objectLoop fuel sp st m ac ak ≠ .panicked ∧
      (∀ v st', objectLoop fuel sp st m ac ak = .ok v st' → goodItems st'.items)) := by
  induction fuel with
  | zero =>
    exact ⟨fun st hg => ⟨fun hc => POut.noConfusion hc,
        fun v st' hok => POut.noConfusion hok⟩,
      fun sp st arr ac av hg => ⟨fun hc => POut.noConfusion hc,
        fun v st' hok => POut.noConfusion hok⟩,
      fun sp st m ac ak hg => ⟨fun hc => POut.noConfusion hc,
        fun v st' hok => POut.noConfusion hok⟩⟩
  | succ fuel ih =>
    obtain ⟨ihv, iha, iho⟩ := ih
    refine ⟨?_, ?_, ?_⟩
    · rintro ⟨items, cs, se⟩ hg
      cases items with
      | nil =>
        exact ⟨fun hc => POut.noConfusion hc, fun v st' hok => POut.noConfusion hok⟩
      | cons i rest =>
        obtain ⟨itok, ispan, islice⟩ := i
        have hgrest : goodItems rest := fun j hj hjn =>
          hg j (List.mem_cons_of_mem _ hj) hjn
        cases itok with
        | error u =>
          exact ⟨fun hc => POut.noConfusion hc, fun v st' hok => POut.noConfusion hok⟩
        | ok t =>
          cases t
          case True | False | Null | String =>
            refine ⟨fun hc => POut.noConfusion hc, fun v st' hok => ?_⟩
            injection hok with h1 h2
            subst h2
            exact hgrest
          case BraceClose | BracketClose | Colon | Comma =>
            exact ⟨fun hc => POut.noConfusion hc, fun v st' hok => POut.noConfusion hok⟩
          case BraceOpen =>
            obtain ⟨hnp, hgok⟩ := iho ispan ⟨rest, ispan, se⟩ [] false false hgrest
            exact ⟨hnp, fun v st' hok => hgok v st' hok⟩
          case BracketOpen =>
            obtain ⟨hnp, hgok⟩ := iha ispan ⟨rest, ispan, se⟩ [] false false hgrest
            exact ⟨hnp, fun v st' hok => hgok v st' hok⟩
          case Number =>
            obtain ⟨x, hx⟩ :=
              Option.isSome_iff_exists.mp (hg _ (List.mem_cons_self _ _) rfl)
            constructor
            · simp only [parse_value, LexerSt.next]
              rw [hx]
              exact fun hc => POut.noConfusion hc
            · intro v st' hok
              simp only [parse_value, LexerSt.next] at hok
              rw [hx] at hok
              injection hok with h1 h2
              subst h2
              exact hgrest
    · rintro sp ⟨items, cs, se⟩ arr ac av hg
      cases items with
      | nil =>
        exact ⟨fun hc => POut.noConfusion hc, fun v st' hok => POut.noConfusion hok⟩
      | cons i rest =>
        obtain ⟨itok, ispan, islice⟩ := i
        have hgrest : goodItems rest := fun j hj hjn =>
          hg j (List.mem_cons_of_mem _ hj) hjn
        cases itok with
        | error u =>
          exact ⟨fun hc => POut.noConfusion hc, fun v st' hok => POut.noConfusion hok⟩
        | ok t =>
          cases t
          case Colon | BraceClose =>
            exact ⟨fun hc => POut.noConfusion hc, fun v st' hok => POut.noConfusion hok⟩
          case True | False | Null | String =>
            cases ac with
            | true =>
              exact ⟨fun hc => POut.noConfusion hc, fun v st' hok => POut.noConfusion hok⟩
            | false =>
              obtain ⟨hnp, hgok⟩ := iha sp ⟨rest, ispan, se⟩ _ true false hgrest
              exact ⟨hnp, fun v st' hok => hgok v st' hok⟩
          case Comma =>
            cases ac with
            | false =>
              exact ⟨fun hc => POut.noConfusion hc, fun v st' hok => POut.noConfusion hok⟩
            | true =>
              obtain ⟨hnp, hgok⟩ := iha sp ⟨rest, ispan, se⟩ arr false true hgrest
              exact ⟨hnp, fun v st' hok => hgok v st' hok⟩
          case BracketClose =>
            cases av with
            | true =>
              exact ⟨fun hc => POut.noConfusion hc, fun v st' hok => POut.noConfusion hok⟩
            | false =>
              refine ⟨fun hc => POut.noConfusion hc, fun v st' hok => ?_⟩
              injection hok with h1 h2
              subst h2
              exact hgrest
          case Number =>
            cases ac with
            | true =>
              exact ⟨fun hc => POut.noConfusion hc, fun v st' hok => POut.noConfusion hok⟩
            | false =>
              obtain ⟨x, hx⟩ :=
                Option.isSome_iff_exists.mp (hg _ (List.mem_cons_self _ _) rfl)
              constructor
              · simp only [arrayLoop, LexerSt.next, Bool.not_false, if_true]
                rw [hx]
                exact (iha sp ⟨rest, ispan, se⟩ (arr ++ [.Number x]) true false hgrest).1
              · intro v st' hok
                simp only [arrayLoop, LexerSt.next, Bool.not_false, if_true] at hok
                rw [hx] at hok
                exact (iha sp ⟨rest, ispan, se⟩ (arr ++ [.Number x]) true false
                  hgrest).2 v st' hok
          case BraceOpen =>
            cases ac with
            | true =>
              exact ⟨fun hc => POut.noConfusion hc, fun v st' hok => POut.noConfusion hok⟩
            | false =>
              obtain ⟨hnpO, hgO⟩ := iho ispan ⟨rest, ispan, se⟩ [] false false hgrest
              constructor
              · simp only [arrayLoop, LexerSt.next, Bool.not_false, if_true]
                cases hres : objectLoop fuel ispan ⟨rest, ispan, se⟩ [] false false with
                | ok v2 st2 =>
                  exact (iha sp st2 (arr ++ [v2]) true false (hgO v2 st2 hres)).1
                | err m2 s2 => simp
                | panicked => exact absurd hres hnpO
                | fuelOut => simp
              · intro v st' hok
                simp only [arrayLoop, LexerSt.next, Bool.not_false, if_true] at hok
                cases hres : objectLoop fuel ispan ⟨rest, ispan, se⟩ [] false false <;>
                  rw [hres] at hok
                case ok v2 st2 =>
                  exact (iha sp st2 (arr ++ [v2]) true false
                    (hgO v2 st2 hres)).2 v st' hok
                case err m2 s2 => exact POut.noConfusion hok
                case panicked => exact POut.noConfusion hok
                case fuelOut => exact POut.noConfusion hok
          case BracketOpen =>
            cases ac with
            | true =>
              exact ⟨fun hc => POut.noConfusion hc, fun v st' hok => POut.noConfusion hok⟩
            | false =>
              obtain ⟨hnpA, hgA⟩ := iha ispan ⟨rest, ispan, se⟩ [] false false hgrest
              constructor
              · simp only [arrayLoop, LexerSt.next, Bool.not_false, if_true]
                cases hres : arrayLoop fuel ispan ⟨rest, ispan, se⟩ [] false false with
                | ok v2 st2 =>
                  exact (iha sp st2 (arr ++ [v2]) true false (hgA v2 st2 hres)).1
                | err m2 s2 => simp
                | panicked => exact absurd hres hnpA
                | fuelOut => simp
              · intro v st' hok
                simp only [arrayLoop, LexerSt.next, Bool.not_false, if_true] at hok
                cases hres : arrayLoop fuel ispan ⟨rest, ispan, se⟩ [] false false <;>
                  rw [hres] at hok
                case ok v2 st2 =>
                  exact (iha sp st2 (arr ++ [v2]) true false
                    (hgA v2 st2 hres)).2 v st' hok
                case err m2 s2 => exact POut.noConfusion hok
                case panicked => exact POut.noConfusion hok
                case fuelOut => exact POut.noConfusion hok
    · rintro sp ⟨items, cs, se⟩ m ac ak hg
      cases items with
      | nil =>
        exact ⟨fun hc => POut.noConfusion hc, fun v st' hok => POut.noConfusion hok⟩
      | cons i rest =>
        obtain ⟨itok, ispan, islice⟩ := i
        have hgrest : goodItems rest := fun j hj hjn =>
          hg j (List.mem_cons_of_mem _ hj) hjn
        cases itok with
        | error u =>
          exact ⟨fun hc => POut.noConfusion hc, fun v st' hok => POut.noConfusion hok⟩
        | ok t =>
          cases t
          case True | False | Null | Number | Colon | BraceOpen | BracketOpen
            | BracketClose =>
            exact ⟨fun hc => POut.noConfusion hc, fun v st' hok => POut.noConfusion hok⟩
          case BraceClose =>
            cases ak with
            | true =>
              exact ⟨fun hc => POut.noConfusion hc, fun v st' hok => POut.noConfusion hok⟩
            | false =>
              refine ⟨fun hc => POut.noConfusion hc, fun v st' hok => ?_⟩
              injection hok with h1 h2
              subst h2
              exact hgrest
          case Comma =>
            cases ac with
            | false =>
              exact ⟨fun hc => POut.noConfusion hc, fun v st' hok => POut.noConfusion hok⟩
            | true =>
              obtain ⟨hnp, hgok⟩ := iho sp ⟨rest, ispan, se⟩ m false true hgrest
              exact ⟨hnp, fun v st' hok => hgok v st' hok⟩
          case String =>
            cases ac with
            | true =>
              exact ⟨fun hc => POut.noConfusion hc, fun v st' hok => POut.noConfusion hok⟩
            | false =>
              cases rest with
              | nil =>
                exact ⟨fun hc => POut.noConfusion hc,
                  fun v st' hok => POut.noConfusion hok⟩
              | cons j rest2 =>
                obtain ⟨jtok, jspan, jslice⟩ := j
                have hgrest2 : goodItems rest2 := fun l hl hln =>
                  hgrest l (List.mem_cons_of_mem _ hl) hln
                cases jtok with
                | error u =>
                  exact ⟨fun hc => POut.noConfusion hc,
                    fun v st' hok => POut.noConfusion hok⟩
                | ok t2 =>
                  cases t2
                  case True | False | Null | Number | Comma | BraceOpen | BracketOpen
                    | BracketClose | BraceClose | String =>
                    exact ⟨fun hc => POut.noConfusion hc,
                      fun v st' hok => POut.noConfusion hok⟩
                  case Colon =>
                    obtain ⟨hnpV, hgV⟩ := ihv ⟨rest2, jspan, se⟩ hgrest2
                    constructor
                    · simp only [objectLoop, LexerSt.next, Bool.not_false, if_true]
                      cases hres : parse_value fuel ⟨rest2, jspan, se⟩ with
                      | ok v2 st3 =>
                        exact (iho sp st3 (insertKV m islice v2) true false
                          (hgV v2 st3 hres)).1
                      | err m2 s2 => simp
                      | panicked => exact absurd hres hnpV
                      | fuelOut => simp
                    · intro v st' hok
                      simp only [objectLoop, LexerSt.next, Bool.not_false, if_true] at hok
                      cases hres : parse_value fuel ⟨rest2, jspan, se⟩ <;> rw [hres] at hok
                      case ok v2 st3 =>
                        exact (iho sp st3 (insertKV m islice v2) true false
                          (hgV v2 st3 hres)).2 v st' hok
                      case err m2 s2 => exact POut.noConfusion hok
                      case panicked => exact POut.noConfusion hok
                      case fuelOut => exact POut.noConfusion hok

/-- C10: every slice the tokenizer classifies as a `Number` token is
accepted by the float conversion, so the `.unwrap()` after
`parse::<f64>()` in `parse_value` and `parse_array` can never panic on
a tokenized source text. -/
theorem c10_number_unwrap_never_panics :
    (∀ (s : List Char) (n : Nat), matchNumber s = some n →
        (rustParseF64 ⟨s.take n⟩).isSome = true) ∧
    (∀ src : String, parseValue src ≠ .panicked) := by
  refine ⟨fun s n h => matchNumber_accepted h, fun src => ?_⟩
  have hg : goodItems (initLexer src).items := tokenize_good _ _ _
  exact ((no_panic ((initLexer src).items.length + 1)).1 (initLexer src) hg).1

/-- Instantiation of `c10_number_unwrap_never_panics` at the lexeme
`-12.5e-3`, with its hypothesis discharged by computation. -/
theorem c10_number_unwrap_never_panics_witness :
    matchNumber "-12.5e-3".data = some 8 ∧
      (rustParseF64 ⟨"-12.5e-3".data.take 8⟩).isSome = true :=
  ⟨by decide, c10_number_unwrap_never_panics.1 "-12.5e-3".data 8 (by decide)⟩

/-- Instantiation of `c3_unterminated_container_error_at_opening` at a
concrete exhausted lexer state. -/
theorem c3_unterminated_container_error_at_opening_witness :
    (⟨[], ⟨9, 9⟩, 4⟩ : LexerSt).items = [] ∧
      arrayLoop 1 ⟨0, 1⟩ ⟨[], ⟨9, 9⟩, 4⟩ [] false false =
        .err "unmatched opening bracket defined here" ⟨0, 1⟩ :=
  ⟨rfl, c3_unterminated_container_error_at_opening.1 0 ⟨0, 1⟩ ⟨[], ⟨9, 9⟩, 4⟩
    [] false false rfl⟩

/-- Instantiation of `c4_array_wrong_state_rejected` at a concrete
state: a comma arrives while no comma is pending. -/
theorem c4_array_wrong_state_rejected_witness :
    (⟨[⟨.ok .Comma, ⟨5, 6⟩, ","⟩], ⟨0, 1⟩, 6⟩ : LexerSt).items =
        ⟨.ok .Comma, ⟨5, 6⟩, ","⟩ :: [] ∧
      arrayLoop 1 ⟨0, 0⟩ ⟨[⟨.ok .Comma, ⟨5, 6⟩, ","⟩], ⟨0, 1⟩, 6⟩ [] false false =
        .err "unexpected token here (context: array)" ⟨5, 6⟩ :=
  ⟨rfl, c4_array_wrong_state_rejected.1 0 ⟨0, 0⟩ ⟨[⟨.ok .Comma, ⟨5, 6⟩, ","⟩], ⟨0, 1⟩, 6⟩
    [] false false ⟨.ok .Comma, ⟨5, 6⟩, ","⟩ [] .Comma rfl rfl
    (Or.inr (Or.inl ⟨rfl, rfl⟩))⟩

/-- Instantiation of `c5_object_key_requires_colon` at a concrete
state: a key followed by a number instead of a colon. -/
theorem c5_object_key_requires_colon_witness :
    (⟨[⟨.ok .String, ⟨1, 4⟩, "\"a\""⟩, ⟨.ok .Number, ⟨5, 6⟩, "1"⟩], ⟨0, 1⟩, 7⟩
        : LexerSt).items =
      ⟨.ok .String, ⟨1, 4⟩, "\"a\""⟩ :: ⟨.ok .Number, ⟨5, 6⟩, "1"⟩ :: [] ∧
      objectLoop 1 ⟨0, 1⟩
        ⟨[⟨.ok .String, ⟨1, 4⟩, "\"a\""⟩, ⟨.ok .Number, ⟨5, 6⟩, "1"⟩], ⟨0, 1⟩, 7⟩
        [] false false =
        .err "unexpected token here, expecting ':'" ⟨5, 6⟩ :=
  ⟨rfl, c5_object_key_requires_colon.1 0 ⟨0, 1⟩
    ⟨[⟨.ok .String, ⟨1, 4⟩, "\"a\""⟩, ⟨.ok .Number, ⟨5, 6⟩, "1"⟩], ⟨0, 1⟩, 7⟩
    [] false ⟨.ok .String, ⟨1, 4⟩, "\"a\""⟩ ⟨.ok .Number, ⟨5, 6⟩, "1"⟩ []
    rfl rfl (by decide)⟩

/-- Instantiation of `c7_string_value_raw_slice` at a concrete state:
a `String` token yields its raw slice verbatim. -/
theorem c7_string_value_raw_slice_witness :
    (⟨[⟨.ok .String, ⟨0, 4⟩, "\"ab\""⟩], ⟨0, 0⟩, 4⟩ : LexerSt).items =
        ⟨.ok .String, ⟨0, 4⟩, "\"ab\""⟩ :: [] ∧
      parse_value 1 ⟨[⟨.ok .String, ⟨0, 4⟩, "\"ab\""⟩], ⟨0, 0⟩, 4⟩ =
        .ok (.String "\"ab\"") ⟨[], ⟨0, 4⟩, 4⟩ :=
  ⟨rfl, c7_string_value_raw_slice.1 0 ⟨[⟨.ok .String, ⟨0, 4⟩, "\"ab\""⟩], ⟨0, 0⟩, 4⟩
    ⟨.ok .String, ⟨0, 4⟩, "\"ab\""⟩ [] rfl rfl⟩
